import Mathlib

/-!
Shallow embedding of the relations/signal-connection subsystem of the
`belly` repository (`bevy_elements_core/src/relations/connect.rs`),
together with theorems settling the frozen claims about it.

Entities are abstract copyable identifiers in the host engine; we model
them as natural numbers.  Rust `HashMap`s are modelled as association
lists (`AList`): lookup finds the first matching key, the `entry` API
modifies the first matching key or appends a fresh one, `remove` drops
the key.  Starting from the empty registry these operations never create
a duplicate key, so the association-list model is faithful to a hash map
at the level of the claims (which are about key/value contents, not
about hash iteration order).
-/

namespace Belly

abbrev Entity := Nat

/-- Modelled from the spec: `ElementsBuilder` (the eml builder crate is not
under `src/`) is "a pre-built element subtree"; `with_elements` appends its
root entities as children of the target.  We record the subtree by its list
of root entities; the subtree's internal edges already live in the world's
children map, since the subtree is pre-built. -/
structure ElementsBuilder where
  roots : List Entity

/-- Modelled from the spec: the deferred commands that
`ConnectionEntityContext::render` / `replace` enqueue on the host command
queue.  `despawnDescendants t` removes all descendants of `t`;
`withElements t eml` appends `eml`'s roots as children of `t`.  The host
applies queued commands in FIFO order at a barrier (spec section 5). -/
inductive Cmd where
  | despawnDescendants (target : Entity)
  | withElements (target : Entity) (eml : ElementsBuilder)

/-- Embeds `ConnectionGeneralContext`: the handler-visible context.  The
`time_resource`, `asset_server` fields are abstract host resource handles
(external collaborators per the spec) and carry no registry-relevant
state, so they are omitted; the deferred command queue is explicit. -/
structure ConnectionGeneralContext (S : Type) where
  source_event : S
  source : Entity
  commands : List Cmd

/-- Embeds `ConnectionEntityContext`: a target entity plus the wrapped general
context (has-a + forward). -/
structure ConnectionEntityContext (S : Type) where
  target : Entity
  ctx : ConnectionGeneralContext S

/-- Embeds `ConnectionGeneralContext::add`: enqueue a deferred command. -/
def ConnectionGeneralContext.add (self : ConnectionGeneralContext S) (command : Cmd) :
    ConnectionGeneralContext S :=
  { self with commands := self.commands ++ [command] }

/-- Embeds `ConnectionEntityContext::render`: `self.target().with_elements(eml)`
enqueues one `withElements` command for the target. -/
def ConnectionEntityContext.render (self : ConnectionEntityContext S) (eml : ElementsBuilder) :
    ConnectionEntityContext S :=
  { self with ctx := self.ctx.add (Cmd.withElements self.target eml) }

/-- Embeds `ConnectionEntityContext::replace`:
`self.target().despawn_descendants(); self.target().with_elements(eml)`
enqueues the despawn command and then the spawn command. -/
def ConnectionEntityContext.replace (self : ConnectionEntityContext S) (eml : ElementsBuilder) :
    ConnectionEntityContext S :=
  let self := { self with ctx := self.ctx.add (Cmd.despawnDescendants self.target) }
  { self with ctx := self.ctx.add (Cmd.withElements self.target eml) }

/-- Handler of the `General` connection variant: mutates the general
context (all its effects go through the context). -/
def GeneralHandler (S : Type) := ConnectionGeneralContext S → ConnectionGeneralContext S

/-- Handler of the `Entity` connection variant. -/
def EntityHandler (S : Type) := ConnectionEntityContext S → ConnectionEntityContext S

/-- Handler of the `Component` connection variant: additionally receives
(and may mutate) the target's component `C`. -/
def ComponentHandler (C S : Type) :=
  ConnectionEntityContext S → C → ConnectionEntityContext S × C

/-- Embeds `ConnectionTo<C, S>`: tagged union over the reaction target. -/
inductive ConnectionTo (C S : Type) where
  | General (handler : GeneralHandler S)
  | Entity (target : Entity) (handler : EntityHandler S)
  | Component (target : Entity) (handler : ComponentHandler C S)

/-- Embeds `ConnectionTo::id`. -/
def ConnectionTo.id : ConnectionTo C S → Option Belly.Entity
  | .Component target _ => some target
  | .Entity target _ => some target
  | _ => none

/-- Embeds `Connection<C, S>`: a target variant paired with a filter predicate. -/
structure Connection (C S : Type) where
  target : ConnectionTo C S
  filter : S → Bool

/-- Embeds `ConnectionTo::filter`: wrap into a `Connection`. -/
def ConnectionTo.filter (self : ConnectionTo C S) (filter : S → Bool) : Connection C S :=
  { target := self, filter := filter }

/-- Embeds `Connection::handles`: evaluate the stored filter on the signal. -/
def Connection.handles (self : Connection C S) (signal : S) : Bool :=
  self.filter signal

/-- Embeds `Connect<C, S>`: a source entity bound to a connection. -/
structure Connect (C S : Type) where
  source : Entity
  target : Connection C S

/-- Embeds `Connection::from` (`from` is reserved in Lean): bind a source entity. -/
def Connection.from' (self : Connection C S) (source : Entity) : Connect C S :=
  { source := source, target := self }

/-! ### Association-list model of `HashMap` -/

/-- Association list keyed by entities. -/
abbrev AList (β : Type) := List (Entity × β)

/-- Embeds `HashMap::get`: first binding of the key, if any. -/
def alistLookup (m : AList β) (k : Entity) : Option β :=
  match m with
  | [] => none
  | (k0, v) :: rest => if k0 = k then some v else alistLookup rest k

/-- Lookup of a list-valued map, defaulting to the empty list. -/
def lookupD (m : AList (List α)) (k : Entity) : List α :=
  (alistLookup m k).getD []

/-- Embeds `HashMap::entry(k).or_default().push(v)`: push `v` onto the list bound
to `k`, binding `k` to `[v]` if it was absent. -/
def entryPush (m : AList (List α)) (k : Entity) (v : α) : AList (List α) :=
  match m with
  | [] => [(k, [v])]
  | (k0, vs) :: rest =>
    if k0 = k then (k0, vs ++ [v]) :: rest else (k0, vs) :: entryPush rest k v

/-- Embeds `HashMap::remove`: drop the key's binding. -/
def removeKey (m : AList β) (k : Entity) : AList β :=
  m.filter (fun p => p.1 ≠ k)

/-- Embeds `HashMap::entry(k).and_modify(f)`: apply `f` to the value bound to `k`
if present; never inserts. -/
def andModify (m : AList β) (k : Entity) (f : β → β) : AList β :=
  match m with
  | [] => []
  | (k0, v) :: rest =>
    if k0 = k then (k0, f v) :: rest else (k0, v) :: andModify rest k f

/-- Keys of the map, in binding order (`HashMap::keys`). -/
def alistKeys (m : AList β) : List Entity :=
  m.map Prod.fst

/-- Embeds `itertools::unique`: keep the first occurrence of each element.
`seen` accumulates the elements already produced. -/
def uniqueAux : List Entity → List Entity → List Entity
  | [], _ => []
  | x :: xs, seen =>
    if x ∈ seen then uniqueAux xs seen else x :: uniqueAux xs (x :: seen)

def uniqueList (l : List Entity) : List Entity :=
  uniqueAux l []

/-! ### The `Connections<C, S>` registry -/

/-- Embeds `Connections<C, S>`: `map` is source entity → connections in
registration order; `index` is target entity → source entities that
reference it (reverse index, used only by `remove`). -/
structure Connections (C S : Type) where
  map : AList (List (Connection C S))
  index : AList (List Entity)

/-- Embeds `Connections::default`: both maps empty. -/
def Connections.default : Connections C S :=
  { map := [], index := [] }

/-- Embeds `Connections::add`. -/
def Connections.add (self : Connections C S) (connection : Connect C S) :
    Connections C S :=
  let index :=
    match connection.target.target.id with
    | some target => entryPush self.index target connection.source
    | none => self.index
  { map := entryPush self.map connection.source connection.target
    index := index }

/-- Embeds `Connections::remove`. -/
def Connections.remove (self : Connections C S) (source : Entity) :
    Connections C S :=
  let map :=
    match alistLookup self.index source with
    | some connections_to =>
      connections_to.foldl
        (fun m connection_to =>
          andModify m connection_to
            (fun e => e.filter (fun c => c.target.id ≠ some source)))
        self.map
    | none => self.map
  { map := removeKey map source
    index := removeKey self.index source }

/-- Embeds `Connections::entities`: keys of `map` chained with keys of `index`,
deduplicated keeping first occurrences. -/
def Connections.entities (self : Connections C S) : List Entity :=
  uniqueList (alistKeys self.map ++ alistKeys self.index)

/-- Registry states reachable from `default` by `add`/`remove` calls. -/
inductive Connections.Reachable : Connections C S → Prop
  | base : Connections.Reachable Connections.default
  | add (st : Connections C S) (c : Connect C S) :
      Connections.Reachable st → Connections.Reachable (st.add c)
  | remove (st : Connections C S) (s : Entity) :
      Connections.Reachable st → Connections.Reachable (st.remove s)

/-- Map-to-index consistency: every connection stored under `map[e]` whose
target id is `some t` has `e` listed among `index[t]`. -/
def Connections.Consistent (st : Connections C S) : Prop :=
  ∀ e vs, alistLookup st.map e = some vs →
    ∀ c ∈ vs, ∀ t, c.target.id = some t → e ∈ lookupD st.index t

/-! ### Host world model for the deferred command queue -/

/-- Modelled from the spec: the slice of host world state the `render` /
`replace` commands touch — each entity's ordered list of children. -/
def World := Entity → List Entity

/-- Pointwise update of a world's children list. -/
def updateW (w : World) (t : Entity) (v : List Entity) : World :=
  fun e => if e = t then v else w e

/-- Modelled from the spec: effect of one deferred command.
`despawn_descendants` removes all of the target's descendants, so the
target is left with no children; `with_elements` appends the subtree's
roots to the target's children. -/
def applyCmd (w : World) : Cmd → World
  | .despawnDescendants t => updateW w t []
  | .withElements t eml => updateW w t (w t ++ eml.roots)

/-- Modelled from the spec: FIFO application of the queued commands at the
host barrier. -/
def applyCmds (w : World) (cs : List Cmd) : World :=
  cs.foldl applyCmd w

/-- Predicate `Desc w p e`: `e` is a descendant of `p` (a child, or a descendant of
a child). -/
inductive Desc (w : World) : Entity → Entity → Prop
  | child {p e : Entity} : e ∈ w p → Desc w p e
  | step {p c e : Entity} : c ∈ w p → Desc w c e → Desc w p e

/-- The subtree under construction is fresh relative to `target`'s current
descendants: no current descendant is among its roots, and no root can
reach `target` or one of its current descendants through existing edges. -/
def FreshTree (w : World) (target : Entity) (eml : ElementsBuilder) : Prop :=
  (∀ e, Desc w target e → e ∉ eml.roots) ∧
    ∀ r ∈ eml.roots, ¬Desc w r target ∧ ∀ e, Desc w target e → ¬Desc w r e

/-! ### Processor registration (`Connect::write`) -/

/-- Modelled from the spec: `RelationsSystems::add_signals_processor::<C, S>`
(defined in `relations/mod.rs`, which is not under `src/`) registers a
dispatch system for the `(C, S)` type pair with the host scheduler;
registration is idempotent — a pair already present is a no-op.  The
`(C, S)` type pair is represented by an explicit key of type ids. -/
def add_signals_processor (systems : List (Nat × Nat)) (key : Nat × Nat) :
    List (Nat × Nat) :=
  if key ∈ systems then systems else systems ++ [key]

/-- The slice of the host world `Connect::write` touches: the
`RelationsSystems` resource (the set of registered `(C, S)` pairs) and the
`Connections<C, S>` resource. -/
structure BellyWorld (C S : Type) where
  systems : List (Nat × Nat)
  connections : Connections C S

/-- Embeds `Connect::write`: register the signals processor for the `(C, S)` pair
(idempotently), then add the connection to the registry.  `key` stands for
the `(C, S)` type pair. -/
def Connect.write (key : Nat × Nat) (self : Connect C S) (world : BellyWorld C S) :
    BellyWorld C S :=
  { systems := add_signals_processor world.systems key
    connections := world.connections.add self }

/-! ### Concrete fixtures used by witnesses and counterexamples -/

/-- A concrete `Entity`-variant connect: source `1`, target `2`. -/
def exConnect : Connect Unit Nat :=
  ((ConnectionTo.Entity 2 (fun c => c)).filter (fun _ => true)).from' 1

/-- A concrete `General`-variant connect from source `1`. -/
def exConnectGeneral : Connect Unit Nat :=
  ((ConnectionTo.General (fun c => c)).filter (fun _ => false)).from' 1

/-- A concrete `Component`-variant connect: source `3`, target `4`. -/
def exConnectComponent : Connect Unit Nat :=
  ((ConnectionTo.Component 4 (fun c u => (c, u))).filter (fun s => s == 0)).from' 3

/-- The registry holding just `exConnect`. -/
def exState : Connections Unit Nat :=
  Connections.default.add exConnect

/-- A concrete world: entity `0` has the single child `1`. -/
def exWorld : World :=
  fun e => if e = 0 then [1] else []

/-- A concrete one-root subtree rooted at the fresh entity `2`. -/
def exTree : ElementsBuilder :=
  ⟨[2]⟩

/-- A concrete entity context targeting entity `0`. -/
def exCtx : ConnectionEntityContext Nat :=
  ⟨0, ⟨7, 5, []⟩⟩

/-- A concrete `BellyWorld` with nothing registered. -/
def exBellyWorld : BellyWorld Unit Nat :=
  ⟨[], Connections.default⟩

/-! ### Lemmas about the association-list operations -/

lemma removeKey_cons_eq (rest : AList β) (k : Entity) (v : β) :
    removeKey ((k, v) :: rest) k = removeKey rest k := by
  simp [removeKey]

lemma removeKey_cons_ne (rest : AList β) {k0 k : Entity} (v : β) (h : k0 ≠ k) :
    removeKey ((k0, v) :: rest) k = (k0, v) :: removeKey rest k := by
  simp [removeKey, h]

lemma alistLookup_entryPush (m : AList (List α)) (k k' : Entity) (v : α) :
    alistLookup (entryPush m k v) k' =
      if k' = k then some (lookupD m k ++ [v]) else alistLookup m k' := by
  induction m with
  | nil =>
    by_cases h : k' = k
    · subst h; simp [entryPush, alistLookup, lookupD]
    · simp [entryPush, alistLookup, lookupD, h, Ne.symm h]
  | cons p rest ih =>
    obtain ⟨k0, vs⟩ := p
    simp only [entryPush]
    by_cases h0 : k0 = k
    · subst h0
      rw [if_pos rfl]
      by_cases h1 : k0 = k'
      · subst h1
        simp [alistLookup, lookupD]
      · simp [alistLookup, h1, Ne.symm h1]
    · rw [if_neg h0]
      by_cases h1 : k0 = k'
      · subst h1
        simp [alistLookup, h0]
      · simp only [alistLookup, if_neg h1]
        rw [ih]
        by_cases h2 : k' = k
        · subst h2
          simp [lookupD, alistLookup, if_neg h0]
        · simp [h2]

lemma alistLookup_removeKey (m : AList β) (k k' : Entity) :
    alistLookup (removeKey m k) k' = if k' = k then none else alistLookup m k' := by
  induction m with
  | nil => simp [removeKey, alistLookup]
  | cons p rest ih =>
    obtain ⟨k0, v⟩ := p
    by_cases h0 : k0 = k
    · subst h0
      rw [removeKey_cons_eq, ih]
      by_cases h1 : k' = k0
      · simp [h1]
      · simp [h1, alistLookup, Ne.symm (show k' ≠ k0 from h1)]
    · rw [removeKey_cons_ne rest v h0]
      simp only [alistLookup]
      by_cases h1 : k0 = k'
      · subst h1
        simp [h0]
      · simp [h1, ih]

lemma alistLookup_andModify (m : AList β) (k k' : Entity) (f : β → β) :
    alistLookup (andModify m k f) k' =
      if k' = k then (alistLookup m k).map f else alistLookup m k' := by
  induction m with
  | nil => simp [andModify, alistLookup]
  | cons p rest ih =>
    obtain ⟨k0, v⟩ := p
    simp only [andModify]
    by_cases h0 : k0 = k
    · subst h0
      rw [if_pos rfl]
      by_cases h1 : k' = k0
      · subst h1; simp [alistLookup]
      · simp [alistLookup, h1, Ne.symm (show k' ≠ k0 from h1)]
    · rw [if_neg h0]
      simp only [alistLookup]
      by_cases h1 : k0 = k'
      · subst h1
        simp [h0]
      · simp [h0, h1, ih]

lemma filter_idem (p : α → Bool) (l : List α) :
    (l.filter p).filter p = l.filter p := by
  induction l with
  | nil => rfl
  | cons a l ih =>
    by_cases h : p a <;> simp [List.filter_cons, h, ih]

lemma removeKey_removeKey (m : AList β) (k : Entity) :
    removeKey (removeKey m k) k = removeKey m k := by
  simp only [removeKey]
  exact filter_idem _ m

lemma removeKey_of_lookup_none (m : AList β) (k : Entity)
    (h : alistLookup m k = none) : removeKey m k = m := by
  induction m with
  | nil => rfl
  | cons p rest ih =>
    obtain ⟨k0, v⟩ := p
    simp only [alistLookup] at h
    by_cases h0 : k0 = k
    · simp [h0] at h
    · simp only [if_neg h0] at h
      rw [removeKey_cons_ne rest v h0, ih h]

lemma alistLookup_eq_none_iff (m : AList β) (k : Entity) :
    alistLookup m k = none ↔ k ∉ alistKeys m := by
  induction m with
  | nil => simp [alistLookup, alistKeys]
  | cons p rest ih =>
    obtain ⟨k0, v⟩ := p
    simp only [alistLookup, alistKeys, List.map_cons, List.mem_cons]
    by_cases h0 : k0 = k
    · simp [h0]
    · simp [h0, ih, alistKeys, Ne.symm (show k0 ≠ k from h0)]

lemma mem_uniqueAux (l seen : List Entity) (e : Entity) :
    e ∈ uniqueAux l seen ↔ e ∈ l ∧ e ∉ seen := by
  induction l generalizing seen with
  | nil => simp [uniqueAux]
  | cons x xs ih =>
    simp only [uniqueAux]
    by_cases h : x ∈ seen
    · rw [if_pos h, ih]
      by_cases hx : e = x
      · subst hx; simp [h]
      · simp [hx]
    · rw [if_neg h]
      by_cases hx : e = x
      · subst hx; simp [h]
      · simp only [List.mem_cons, ih, List.mem_cons]
        constructor
        · rintro (heq | ⟨hmem, hns⟩)
          · exact absurd heq hx
          · exact ⟨Or.inr hmem, fun hc => hns (Or.inr hc)⟩
        · rintro ⟨heq | hmem, hns⟩
          · exact absurd heq hx
          · exact Or.inr ⟨hmem, fun hc => hc.elim hx hns⟩

lemma mem_lookupD_some (m : AList (List α)) (k : Entity) (e : α)
    (h : e ∈ lookupD m k) : ∃ vs, alistLookup m k = some vs ∧ e ∈ vs := by
  cases hm : alistLookup m k with
  | none => rw [lookupD, hm] at h; simp at h
  | some vs => exact ⟨vs, rfl, by rwa [lookupD, hm] at h⟩

lemma lookupD_entryPush_superset (m : AList (List α)) (k t : Entity) (v e : α)
    (h : e ∈ lookupD m t) : e ∈ lookupD (entryPush m k v) t := by
  rw [lookupD, alistLookup_entryPush]
  by_cases ht : t = k
  · subst ht
    simp only [if_pos rfl, Option.getD_some]
    exact List.mem_append.2 (Or.inl h)
  · rw [if_neg ht]
    exact h

lemma alistLookup_scrubFold (s : Entity) (cts : List Entity)
    (m : AList (List (Connection C S))) (e : Entity) :
    alistLookup
        (cts.foldl
          (fun m ct =>
            andModify m ct (fun l => l.filter (fun c => c.target.id ≠ some s)))
          m)
        e =
      if e ∈ cts then
        (alistLookup m e).map (fun l => l.filter (fun c => c.target.id ≠ some s))
      else alistLookup m e := by
  induction cts generalizing m with
  | nil => simp
  | cons ct cts ih =>
    simp only [List.foldl_cons]
    rw [ih]
    by_cases h2 : e = ct
    · subst h2
      rw [if_pos (List.mem_cons_self e cts)]
      by_cases h1 : e ∈ cts
      · rw [if_pos h1, alistLookup_andModify, if_pos rfl]
        cases alistLookup m e <;> simp [filter_idem]
      · rw [if_neg h1, alistLookup_andModify, if_pos rfl]
    · rw [alistLookup_andModify, if_neg h2]
      by_cases h1 : e ∈ cts <;> simp [h1, h2]

lemma nodup_uniqueAux (l : List Entity) :
    ∀ seen, (uniqueAux l seen).Nodup := by
  induction l with
  | nil => intro seen; simp [uniqueAux]
  | cons x xs ih =>
    intro seen
    simp only [uniqueAux]
    by_cases h : x ∈ seen
    · simpa [h] using ih seen
    · rw [if_neg h]
      refine List.nodup_cons.2 ⟨?_, ih _⟩
      rw [mem_uniqueAux]
      rintro ⟨-, hmem⟩
      exact hmem (List.mem_cons_self x seen)

/-! ### Consistency of the registry under `add` and `remove` -/

lemma add_map_eq (st : Connections C S) (c : Connect C S) :
    (st.add c).map = entryPush st.map c.source c.target := rfl

lemma add_index_eq (st : Connections C S) (c : Connect C S) :
    (st.add c).index =
      match c.target.target.id with
      | some target => entryPush st.index target c.source
      | none => st.index := rfl

lemma remove_index_eq (st : Connections C S) (s : Entity) :
    (st.remove s).index = removeKey st.index s := rfl

lemma remove_map_eq (st : Connections C S) (s : Entity) :
    (st.remove s).map =
      removeKey
        (match alistLookup st.index s with
         | some connections_to =>
           connections_to.foldl
             (fun m connection_to =>
               andModify m connection_to
                 (fun e => e.filter (fun c => c.target.id ≠ some s)))
             st.map
         | none => st.map)
        s := rfl

lemma mem_lookupD_index_add (st : Connections C S) (c : Connect C S)
    (e t : Entity) (h : e ∈ lookupD st.index t) :
    e ∈ lookupD (st.add c).index t := by
  rw [add_index_eq]
  cases hid : c.target.target.id with
  | none => simpa using h
  | some t0 => exact lookupD_entryPush_superset st.index t0 t c.source e h

lemma consistent_add (st : Connections C S) (c : Connect C S)
    (h : st.Consistent) : (st.add c).Consistent := by
  intro e vs hvs x hx t hid
  rw [add_map_eq, alistLookup_entryPush] at hvs
  by_cases he : e = c.source
  · rw [if_pos he] at hvs
    subst he
    cases hvs
    rcases List.mem_append.1 hx with hx | hx
    · obtain ⟨vs0, hvs0, hx0⟩ := mem_lookupD_some st.map c.source x hx
      exact mem_lookupD_index_add st c c.source t (h c.source vs0 hvs0 x hx0 t hid)
    · have hxc : x = c.target := by simpa using hx
      subst hxc
      rw [add_index_eq, hid]
      rw [lookupD, alistLookup_entryPush, if_pos rfl]
      simp
  · rw [if_neg he] at hvs
    exact mem_lookupD_index_add st c e t (h e vs hvs x hx t hid)

lemma remove_map_lookup (st : Connections C S) (s e : Entity)
    (vs : List (Connection C S))
    (h : alistLookup (st.remove s).map e = some vs) :
    e ≠ s ∧ ∃ vs0, alistLookup st.map e = some vs0 ∧ ∀ x ∈ vs, x ∈ vs0 := by
  rw [remove_map_eq, alistLookup_removeKey] at h
  by_cases hes : e = s
  · rw [if_pos hes] at h; exact absurd h (by simp)
  refine ⟨hes, ?_⟩
  rw [if_neg hes] at h
  cases hidx : alistLookup st.index s with
  | none =>
    rw [hidx] at h
    exact ⟨vs, h, fun x hx => hx⟩
  | some cts =>
    rw [hidx, alistLookup_scrubFold] at h
    by_cases hecs : e ∈ cts
    · rw [if_pos hecs] at h
      cases hm : alistLookup st.map e with
      | none => rw [hm] at h; simp at h
      | some vs0 =>
        rw [hm] at h
        simp only [Option.map_some', Option.some.injEq] at h
        subst h
        exact ⟨vs0, rfl, fun x hx => (List.mem_filter.1 hx).1⟩
    · rw [if_neg hecs] at h
      exact ⟨vs, h, fun x hx => hx⟩

lemma remove_no_target (st : Connections C S) (hc : st.Consistent)
    (s e : Entity) (vs : List (Connection C S))
    (h : alistLookup (st.remove s).map e = some vs) :
    ∀ x ∈ vs, x.target.id ≠ some s := by
  rw [remove_map_eq, alistLookup_removeKey] at h
  by_cases hes : e = s
  · rw [if_pos hes] at h; exact absurd h (by simp)
  rw [if_neg hes] at h
  cases hidx : alistLookup st.index s with
  | none =>
    rw [hidx] at h
    intro x hx hid
    have hmem := hc e vs h x hx s hid
    rw [lookupD, hidx] at hmem
    simp at hmem
  | some cts =>
    rw [hidx, alistLookup_scrubFold] at h
    by_cases hecs : e ∈ cts
    · rw [if_pos hecs] at h
      cases hm : alistLookup st.map e with
      | none => rw [hm] at h; simp at h
      | some vs0 =>
        rw [hm] at h
        simp only [Option.map_some', Option.some.injEq] at h
        subst h
        intro x hx
        have := (List.mem_filter.1 hx).2
        simpa using this
    · rw [if_neg hecs] at h
      intro x hx hid
      have hmem := hc e vs h x hx s hid
      rw [lookupD, hidx] at hmem
      simp only [Option.getD_some] at hmem
      exact hecs hmem

lemma consistent_remove (st : Connections C S) (s : Entity)
    (hc : st.Consistent) : (st.remove s).Consistent := by
  intro e vs h x hx t hid
  have hneq : x.target.id ≠ some s := remove_no_target st hc s e vs h x hx
  have hts : t ≠ s := fun h' => hneq (h' ▸ hid)
  obtain ⟨-, vs0, hvs0, hsub⟩ := remove_map_lookup st s e vs h
  have hmem := hc e vs0 hvs0 x (hsub x hx) t hid
  rw [remove_index_eq, lookupD, alistLookup_removeKey, if_neg hts]
  exact hmem

lemma reachable_consistent (st : Connections C S) (h : st.Reachable) :
    st.Consistent := by
  induction h with
  | base =>
    intro e vs h
    simp [Connections.default, alistLookup] at h
  | add st c _ ih => exact consistent_add st c ih
  | remove st s _ ih => exact consistent_remove st s ih

/-! ### Lemmas about the world model -/

lemma updateW_self (w : World) (t : Entity) (v : List Entity) :
    updateW w t v t = v := by
  simp [updateW]

lemma updateW_other (w : World) (t : Entity) (v : List Entity)
    (e : Entity) (h : e ≠ t) : updateW w t v e = w e := by
  simp [updateW, h]

lemma applyCmds_replace_pair (w : World) (t : Entity) (eml : ElementsBuilder) :
    applyCmds w [Cmd.despawnDescendants t, Cmd.withElements t eml] =
      updateW w t eml.roots := by
  funext e
  by_cases h : e = t <;>
    simp [applyCmds, applyCmd, updateW, h]

lemma desc_nil (w : World) (p : Entity) (h : w p = []) (e : Entity) :
    ¬Desc w p e := by
  intro hd
  cases hd with
  | child hm => rw [h] at hm; exact absurd hm (List.not_mem_nil _)
  | step hm _ => rw [h] at hm; exact absurd hm (List.not_mem_nil _)

lemma desc_updateW_of_avoid (w : World) (t : Entity) (roots : List Entity)
    (p e : Entity) (hd : Desc (updateW w t roots) p e) (hp : p ≠ t)
    (hnt : ¬Desc w p t) : Desc w p e := by
  induction hd with
  | child hm =>
    rw [updateW_other w t roots _ (by assumption)] at hm
    exact Desc.child hm
  | step hm hd ih =>
    rename_i p0 c0 e0
    rw [updateW_other w t roots _ (by assumption)] at hm
    have hct : c0 ≠ t := by
      intro hc
      subst hc
      exact hnt (Desc.child hm)
    have hcnt : ¬Desc w c0 t := by
      intro hc
      exact hnt (Desc.step hm hc)
    exact Desc.step hm (ih hct hcnt)

lemma desc_updateW_from_target_aux (w : World) (t : Entity) (roots : List Entity)
    (p e : Entity) (hp : Desc (updateW w t roots) p e) :
    p = t → e ∈ roots ∨ ∃ r ∈ roots, r ≠ t ∧ Desc (updateW w t roots) r e := by
  induction hp with
  | child hm =>
    intro hpt
    rw [hpt, updateW_self] at hm
    exact Or.inl hm
  | step hm hdc ih =>
    rename_i p0 c0 e0
    intro hpt
    rw [hpt, updateW_self] at hm
    by_cases hct : c0 = t
    · exact ih hct
    · exact Or.inr ⟨c0, hm, hct, hdc⟩

lemma desc_updateW_from_target (w : World) (t : Entity) (roots : List Entity)
    (e : Entity) (hd : Desc (updateW w t roots) t e) :
    e ∈ roots ∨ ∃ r ∈ roots, r ≠ t ∧ Desc (updateW w t roots) r e :=
  desc_updateW_from_target_aux w t roots t e hd rfl

/-! ### Lemmas about processor registration -/

lemma write_systems_of_mem (key : Nat × Nat) (world : BellyWorld C S)
    (c : Connect C S) (h : key ∈ world.systems) :
    (Connect.write key c world).systems = world.systems := by
  simp [Connect.write, add_signals_processor, h]

lemma foldl_write_systems_of_mem (key : Nat × Nat) :
    ∀ (cs : List (Connect C S)) (world : BellyWorld C S),
      key ∈ world.systems →
      (List.foldl (fun w c => Connect.write key c w) world cs).systems =
        world.systems := by
  intro cs
  induction cs with
  | nil => intro world _; rfl
  | cons c cs ih =>
    intro world h
    simp only [List.foldl_cons]
    rw [ih (Connect.write key c world)
      (by rw [write_systems_of_mem key world c h]; exact h)]
    exact write_systems_of_mem key world c h

/-! ### Lemmas about `add` and registration order -/

lemma lookupD_add_map_self (st : Connections C S) (c : Connect C S) :
    lookupD (st.add c).map c.source = lookupD st.map c.source ++ [c.target] := by
  rw [add_map_eq, lookupD, alistLookup_entryPush, if_pos rfl]
  rfl

lemma foldl_add_same_source (s : Entity) :
    ∀ (cs : List (Connect C S)) (st : Connections C S),
      (∀ x ∈ cs, x.source = s) →
      lookupD (List.foldl Connections.add st cs).map s =
        lookupD st.map s ++ cs.map (fun x => x.target) := by
  intro cs
  induction cs with
  | nil => intro st _; simp
  | cons c cs ih =>
    intro st h
    have hc : c.source = s := h c (List.mem_cons_self c cs)
    simp only [List.foldl_cons, List.map_cons]
    rw [ih (st.add c) (fun x hx => h x (List.mem_cons.2 (Or.inr hx)))]
    rw [← hc, lookupD_add_map_self]
    simp

/-! ### Descendants in the concrete example world -/

lemma desc_exWorld (e : Entity) (h : Desc exWorld 0 e) : e = 1 := by
  cases h with
  | child hm => simpa [exWorld] using hm
  | step hm hd =>
    rename_i c
    have hc : c = 1 := by simpa [exWorld] using hm
    subst hc
    exact absurd hd (desc_nil exWorld 1 rfl e)

lemma freshTree_exWorld : FreshTree exWorld 0 exTree := by
  constructor
  · intro e hd
    have := desc_exWorld e hd
    subst this
    simp [exTree]
  · intro r hr
    have hr2 : r = 2 := by simpa [exTree] using hr
    subst hr2
    exact ⟨desc_nil exWorld 2 rfl 0, fun e _ => desc_nil exWorld 2 rfl e⟩

lemma remove_of_index_none (st : Connections C S) (s : Entity)
    (h : alistLookup st.index s = none) :
    st.remove s = ⟨removeKey st.map s, removeKey st.index s⟩ := by
  simp only [Connections.remove, h]

/-! ### Claim theorems -/

/-- C1: in every registry state reachable by `add`/`remove` calls, after
`remove(source)` (a) `map` has no entry keyed by `source` and (b) no
connection stored in any entity's list has target id `Some(source)`. -/
theorem c1_remove_scrubs_source (st : Connections C S) (h : st.Reachable)
    (s : Entity) :
    alistLookup (st.remove s).map s = none ∧
      ∀ e vs, alistLookup (st.remove s).map e = some vs →
        ∀ c ∈ vs, c.target.id ≠ some s := by
  refine ⟨?_, ?_⟩
  · rw [remove_map_eq, alistLookup_removeKey, if_pos rfl]
  · intro e vs hvs c hc
    exact remove_no_target st (reachable_consistent st h) s e vs hvs c hc

theorem c1_witness :
    alistLookup ((exState.remove 1).map) 1 = none :=
  (c1_remove_scrubs_source exState
      (Connections.Reachable.add Connections.default exConnect
        Connections.Reachable.base) 1).1

/-- C2, counterexample: after `remove(1)` on a registry where source `1`
registered a connection targeting `2`, the reverse index still lists `1`
among the sources of target `2` — a stale reverse-index entry remains,
refuting the claim that none do. -/
theorem c2_counterexample :
    (1 : Entity) ∈ lookupD ((Connections.default.add exConnect).remove 1).index 2 := by
  decide

/-- C2, amended: every reachable registry state satisfies map-to-index
consistency (each connection in `map` with target id `Some(t)` has its
source listed under `index[t]`), `remove(source)` drops the index entry
keyed by `source` and preserves the consistency invariant; however
`index[t]` for other targets `t` may retain stale entries naming removed
sources (coarse removal, spec section 9). -/
theorem c2_amended_consistency (st : Connections C S) (h : st.Reachable)
    (s : Entity) :
    st.Consistent ∧ alistLookup (st.remove s).index s = none ∧
      (st.remove s).Consistent := by
  have hc := reachable_consistent st h
  exact ⟨hc, by rw [remove_index_eq, alistLookup_removeKey, if_pos rfl],
    consistent_remove st s hc⟩

theorem c2_witness :
    alistLookup ((exState.remove 1).index) 1 = none :=
  (c2_amended_consistency exState
      (Connections.Reachable.add Connections.default exConnect
        Connections.Reachable.base) 1).2.1

/-- C3: `add` appends `connect.source` to `index[target]` exactly when the
target id is `Some(target)` (other index entries untouched; `index`
unchanged for `General` targets), appends the `Connection` to the end of
`map[connect.source]`, and a sequence of adds from one source lists the
connections under `map[source]` in registration order. -/
theorem c3_add_spec (st : Connections C S) (c : Connect C S) :
    (∀ t, c.target.target.id = some t →
        lookupD (st.add c).index t = lookupD st.index t ++ [c.source] ∧
        ∀ u, u ≠ t → alistLookup (st.add c).index u = alistLookup st.index u) ∧
    (c.target.target.id = none → (st.add c).index = st.index) ∧
    lookupD (st.add c).map c.source = lookupD st.map c.source ++ [c.target] ∧
    ∀ (s : Entity) (cs : List (Connect C S)), (∀ x ∈ cs, x.source = s) →
      lookupD (List.foldl Connections.add st cs).map s =
        lookupD st.map s ++ cs.map (fun x => x.target) := by
  refine ⟨?_, ?_, lookupD_add_map_self st c, ?_⟩
  · intro t hid
    rw [add_index_eq, hid]
    constructor
    · rw [lookupD, alistLookup_entryPush, if_pos rfl]
      rfl
    · intro u hu
      rw [alistLookup_entryPush, if_neg hu]
  · intro hid
    rw [add_index_eq, hid]
  · intro s cs hsrc
    exact foldl_add_same_source s cs st hsrc

theorem c3_witness :
    lookupD ((Connections.default.add exConnect).index) 2 = [1] := by
  have h := ((c3_add_spec Connections.default exConnect).1 2 rfl).1
  simpa using h

/-- C4: the connection built by `t.filter(f)` satisfies
`handles(s) = f(s)` for every signal `s`, and building it stores `t` and
`f` unchanged (in this pure embedding, evaluating `handles` is exactly one
application of the stored filter and has no other effect). -/
theorem c4_filter_handles (t : ConnectionTo C S) (f : S → Bool) (s : S) :
    (t.filter f).handles s = f s ∧ (t.filter f).target = t ∧
      (t.filter f).filter = f :=
  ⟨rfl, rfl, rfl⟩

/-- C5: `id()` returns `Some(target)` on the `Entity` and `Component`
variants and `None` on the `General` variant. -/
theorem c5_connection_to_id (tgt : Entity) (h1 : GeneralHandler S)
    (h2 : EntityHandler S) (h3 : ComponentHandler C S) :
    (ConnectionTo.General h1 : ConnectionTo C S).id = none ∧
    (ConnectionTo.Entity tgt h2 : ConnectionTo C S).id = some tgt ∧
    (ConnectionTo.Component tgt h3 : ConnectionTo C S).id = some tgt :=
  ⟨rfl, rfl, rfl⟩

/-- C6: `replace(tree)` enqueues the despawn-all-descendants command for
the target and then the spawn command for the new subtree, in that order;
under FIFO application of those two commands the target ends with the new
tree's roots as its children and none of its pre-existing descendants
remains a descendant (for subtrees fresh with respect to the target). -/
theorem c6_replace_ordering (ctx : ConnectionEntityContext S)
    (eml : ElementsBuilder) :
    (ctx.replace eml).ctx.commands =
      ctx.ctx.commands ++
        [Cmd.despawnDescendants ctx.target, Cmd.withElements ctx.target eml] ∧
    ∀ w : World, FreshTree w ctx.target eml →
      applyCmds w
          [Cmd.despawnDescendants ctx.target, Cmd.withElements ctx.target eml]
          ctx.target = eml.roots ∧
      ∀ e, Desc w ctx.target e →
        ¬Desc (applyCmds w
            [Cmd.despawnDescendants ctx.target, Cmd.withElements ctx.target eml])
          ctx.target e := by
  constructor
  · simp [ConnectionEntityContext.replace, ConnectionGeneralContext.add]
  · intro w hf
    rw [applyCmds_replace_pair]
    refine ⟨updateW_self w ctx.target eml.roots, ?_⟩
    intro e hde hd'
    rcases desc_updateW_from_target w ctx.target eml.roots e hd' with
      hmem | ⟨r, hr, hrt, hdr⟩
    · exact hf.1 e hde hmem
    · obtain ⟨hnrt, hall⟩ := hf.2 r hr
      exact hall e hde
        (desc_updateW_of_avoid w ctx.target eml.roots r e hdr hrt hnrt)

theorem c6_witness :
    applyCmds exWorld
        [Cmd.despawnDescendants exCtx.target, Cmd.withElements exCtx.target exTree]
        exCtx.target = exTree.roots :=
  ((c6_replace_ordering exCtx exTree).2 exWorld freshTree_exWorld).1

/-- C7: `Connect::write` registers the dispatch system for the `(C, S)`
pair idempotently: any number `N ≥ 1` of writes leaves exactly one
registration, and re-registering an already-registered pair is a no-op. -/
theorem c7_write_registers_once (key : Nat × Nat) (world : BellyWorld C S)
    (h : key ∉ world.systems) (cs : List (Connect C S)) (hne : cs ≠ []) :
    List.count key
        (List.foldl (fun w c => Connect.write key c w) world cs).systems = 1 ∧
    ∀ systems : List (Nat × Nat),
      add_signals_processor (add_signals_processor systems key) key =
        add_signals_processor systems key := by
  constructor
  · cases cs with
    | nil => exact absurd rfl hne
    | cons c cs =>
      simp only [List.foldl_cons]
      have h1 : (Connect.write key c world).systems = world.systems ++ [key] := by
        simp [Connect.write, add_signals_processor, h]
      have hmem : key ∈ (Connect.write key c world).systems := by
        rw [h1]
        exact List.mem_append.2 (Or.inr (List.mem_singleton.2 rfl))
      rw [foldl_write_systems_of_mem key cs (Connect.write key c world) hmem, h1,
        List.count_append, List.count_eq_zero.2 h]
      simp
  · intro systems
    by_cases hs : key ∈ systems
    · simp [add_signals_processor, hs]
    · simp only [add_signals_processor, if_neg hs]
      rw [if_pos (List.mem_append.2 (Or.inr (List.mem_singleton.2 rfl)))]

theorem c7_witness :
    List.count ((0, 0) : Nat × Nat)
        (List.foldl (fun w c => Connect.write (0, 0) c w) exBellyWorld
          [exConnect, exConnect]).systems = 1 :=
  (c7_write_registers_once (0, 0) exBellyWorld (by simp [exBellyWorld])
      [exConnect, exConnect] (by simp)).1

/-- C8: `render(tree)` enqueues exactly one command — appending the
subtree as children of the target — so applying it appends the new roots
after the pre-existing children of the target and leaves every other
entity's children unchanged. -/
theorem c8_render_appends_only (ctx : ConnectionEntityContext S)
    (eml : ElementsBuilder) :
    (ctx.render eml).ctx.commands =
      ctx.ctx.commands ++ [Cmd.withElements ctx.target eml] ∧
    ∀ w : World,
      applyCmd w (Cmd.withElements ctx.target eml) ctx.target =
        w ctx.target ++ eml.roots ∧
      ∀ e, e ≠ ctx.target → applyCmd w (Cmd.withElements ctx.target eml) e = w e := by
  refine ⟨rfl, ?_⟩
  intro w
  refine ⟨?_, ?_⟩
  · simp [applyCmd, updateW]
  · intro e he
    simp [applyCmd, updateW, he]

theorem c8_witness :
    applyCmd exWorld (Cmd.withElements exCtx.target exTree) 3 = exWorld 3 :=
  ((c8_render_appends_only exCtx exTree).2 exWorld).2 3 (by decide)

/-- C9: `entities()` yields exactly the entities that occur as a key of
`map` or of `index`, each at most once. -/
theorem c9_entities_spec (st : Connections C S) :
    (∀ e, e ∈ st.entities ↔ e ∈ alistKeys st.map ∨ e ∈ alistKeys st.index) ∧
    st.entities.Nodup := by
  constructor
  · intro e
    rw [Connections.entities, uniqueList, mem_uniqueAux]
    simp
  · exact nodup_uniqueAux _ _

/-- C10: `remove` is idempotent — removing the same source twice equals
removing it once — and removing a source that is a key of neither `map`
nor `index` leaves the registry unchanged. -/
theorem c10_remove_idempotent (st : Connections C S) (s : Entity) :
    (st.remove s).remove s = st.remove s ∧
      (alistLookup st.map s = none → alistLookup st.index s = none →
        st.remove s = st) := by
  constructor
  · have hidx : alistLookup (st.remove s).index s = none := by
      rw [remove_index_eq, alistLookup_removeKey, if_pos rfl]
    rw [remove_of_index_none (st.remove s) s hidx, remove_index_eq,
      removeKey_removeKey, remove_map_eq, removeKey_removeKey]
    rfl
  · intro hm hi
    rw [remove_of_index_none st s hi, removeKey_of_lookup_none st.map s hm,
      removeKey_of_lookup_none st.index s hi]

theorem c10_witness :
    (Connections.default : Connections Unit Nat).remove 5 = Connections.default :=
  (c10_remove_idempotent (Connections.default : Connections Unit Nat) 5).2 rfl rfl

end Belly
